import Mathlib

/-!
Verification development for the Discrepancies comparison core.

The Go source (internal/compare/compare.go, archive.go, diff.go and
internal/models/types.go) is embedded shallowly: strings are `List Char`,
Go maps are association lists with distinct keys (the `Nodup` hypotheses),
filesystem reads and hash computations are modelled by `Option`-valued data
(`none` = the read/hash failed), and the Go `regexp` engine is modelled by an
executable matcher for exactly the anchored regex fragment that
`globToRegex` emits.  Paths are modelled already forward-slash normalized,
so `filepath.ToSlash` is the identity.
-/

/-- Characters escaped by Go `regexp.QuoteMeta` (its `specialBytes` set). -/
def reSpecials : List Char :=
  ['\\', '.', '+', '*', '?', '(', ')', '|', '[', ']', '\x7b', '\x7d', '^', '$']

/-- Model of `regexp.QuoteMeta`: prefix every special character with a backslash. -/
def quoteMeta : List Char → List Char
  | [] => []
  | c :: rest =>
    if reSpecials.contains c then '\\' :: c :: quoteMeta rest
    else c :: quoteMeta rest

/-- Worker of `replaceAll`, structurally recursive on a fuel counter that
always dominates the string length (each step consumes at least one
character, so the zero-fuel arm is never reached from `replaceAll`). -/
def replaceAllGo (old new : List Char) : Nat → List Char → List Char
  | _, [] => []
  | 0, s => s
  | fuel + 1, c :: rest =>
    if !old.isEmpty && old.isPrefixOf (c :: rest) then
      new ++ replaceAllGo old new fuel ((c :: rest).drop old.length)
    else
      c :: replaceAllGo old new fuel rest

/-- Model of Go `strings.ReplaceAll s old new` for non-empty `old`:
leftmost, non-overlapping replacement.  (The source never calls it with an
empty `old`; here an empty `old` leaves the string unchanged.) -/
def replaceAll (old new s : List Char) : List Char :=
  replaceAllGo old new s.length s

/-- Embedding of `globToRegex` (compare.go): quote the pattern, then rewrite
the glob wildcards `**`, `*`, `?` and anchor the result with `^`…`$`. -/
def globToRegex (pattern : List Char) : List Char :=
  let r0 := quoteMeta pattern
  let r1 := replaceAll "\\*\\*".toList ".*".toList r0
  let r2 := replaceAll "\\*".toList "[^/]*".toList r1
  let r3 := replaceAll "\\?".toList ".".toList r2
  '^' :: r3 ++ ['$']

/-- One atom of the regex fragment that `globToRegex` emits:
a literal character, `.` (any character except newline), `.*`, or `[^/]*`. -/
inductive RItem : Type
  | lit : Char → RItem
  | dot : RItem
  | dotStar : RItem
  | nonSlashStar : RItem
deriving DecidableEq, Repr

/-- Parser for the body of the anchored fragment.  It recognizes exactly the
atoms `globToRegex` can produce; anything else (in particular a naked regex
metacharacter, as in an invalid user pattern) fails with `none`, modelling a
`regexp.Compile` failure. -/
def parseBody : List Char → Option (List RItem)
  | [] => some []
  | '[' :: '^' :: '/' :: ']' :: '*' :: rest => (parseBody rest).map (RItem.nonSlashStar :: ·)
  | '\\' :: c :: rest => (parseBody rest).map (RItem.lit c :: ·)
  | '.' :: '*' :: rest => (parseBody rest).map (RItem.dotStar :: ·)
  | '.' :: rest => (parseBody rest).map (RItem.dot :: ·)
  | c :: rest =>
    if reSpecials.contains c then none else (parseBody rest).map (RItem.lit c :: ·)

/-- Model of `regexp.Compile` on the anchored fragment: requires the leading
`^` and trailing `$` that `globToRegex` adds, and parses the body. -/
def parseRegex (s : List Char) : Option (List RItem) :=
  match s with
  | '^' :: rest =>
    if rest.getLast? == some '$' then parseBody rest.dropLast else none
  | _ => none

/-- Star-quantifier loop: try the continuation `k` on the current suffix,
or consume one character different from `banned` and repeat — the standard
nondeterministic semantics of `.*` (banned = newline) and `[^/]*`
(banned = `/`). -/
def starLoop (banned : Char) (k : List Char → Bool) : List Char → Bool
  | [] => k []
  | d :: s => k (d :: s) || (d != banned && starLoop banned k s)

/-- Matcher for the fragment, with Go/RE2 default semantics: `.` (hence also
`.*`) matches any character except newline, `[^/]*` matches any characters
except `/` (newline included), and the pattern, being anchored, must cover the
whole subject. -/
def rmatch : List RItem → List Char → Bool
  | [], s => s.isEmpty
  | RItem.lit c :: rest, s =>
    match s with
    | [] => false
    | d :: s2 => c == d && rmatch rest s2
  | RItem.dot :: rest, s =>
    match s with
    | [] => false
    | d :: s2 => d != '\n' && rmatch rest s2
  | RItem.dotStar :: rest, s => starLoop '\n' (fun t => rmatch rest t) s
  | RItem.nonSlashStar :: rest, s => starLoop '/' (fun t => rmatch rest t) s

/-- Whole pipeline for a glob rule: translate the pattern, compile it in the
fragment, and run the anchored matcher (`MatchString` on an anchored regex is
a whole-string match). -/
def globMatches (pattern s : List Char) : Bool :=
  match parseRegex (globToRegex pattern) with
  | some re => rmatch re s
  | none => false

/-- Model of Go `strings.Split s (String.singleton sep)`. -/
def splitOnChar (sep : Char) : List Char → List (List Char)
  | [] => [[]]
  | c :: rest =>
    if c == sep then [] :: splitOnChar sep rest
    else
      match splitOnChar sep rest with
      | [] => [[c]]
      | s :: ss => (c :: s) :: ss

/-- Drop trailing `/` characters (first phase of `filepath.Base`). -/
def dropTrailingSlashes (p : List Char) : List Char :=
  (p.reverse.dropWhile (· == '/')).reverse

/-- Everything after the last `/` (second phase of `filepath.Base`). -/
def lastSegmentAfterSlash (p : List Char) : List Char :=
  (p.reverse.takeWhile (· != '/')).reverse

/-- Embedding of `filepath.Base` for slash-separated paths. -/
def baseName (p : List Char) : List Char :=
  if p = [] then ['.']
  else
    let q := dropTrailingSlashes p
    if q = [] then ['/'] else lastSegmentAfterSlash q

/-- Embedding of `models.ExcludeRule` (types.go).  The Go field `Type`
("glob" or "regex") is called `kind` here because `Type` is a Lean keyword. -/
structure ExcludeRule where
  Pattern : List Char
  kind : List Char
  IsDir : Bool
  Enabled : Bool
  Comment : List Char
deriving DecidableEq, Repr

/-- Embedding of `compiledRule` (compare.go): a rule paired with its compiled
regex (`none` when compilation failed) and, for glob rules, the raw pattern. -/
structure compiledRule where
  rule : ExcludeRule
  regex : Option (List RItem)
  pattern : List Char
deriving DecidableEq, Repr

/-- Embedding of `ExcludeMatcher.compile` (compare.go).  Disabled rules are
skipped; a "regex"-kind rule is compiled with the verbatim user pattern
(`rc` stands for `regexp.Compile`; `parseRegex` instantiates it for the
fragment modelled here, yielding `none` — a silently inert rule — for any
pattern outside it, e.g. an invalid one); every other kind is treated as a
glob and compiled through `globToRegex`. -/
def compile (rc : List Char → Option (List RItem)) : List ExcludeRule → List compiledRule
  | [] => []
  | r :: rest =>
    if !r.Enabled then compile rc rest
    else
      (if r.kind == "regex".toList then
        { rule := r, regex := rc r.Pattern, pattern := [] }
      else
        { rule := r, regex := parseRegex (globToRegex r.Pattern), pattern := r.Pattern })
      :: compile rc rest

/-- Embedding of `ExcludeMatcher.pathContainsDir` (compare.go): does any
path segment except the last one (the file name) match the rule's regex? -/
def pathContainsDir (re : List RItem) (path : List Char) : Bool :=
  ((splitOnChar '/' path).dropLast).any (fun part => rmatch re part)

/-- Embedding of the `ExcludeMatcher.ShouldExclude` loop (compare.go).
Paths are modelled already slash-normalized, so the leading
`filepath.ToSlash` is the identity and is omitted.  A rule whose regex
failed to compile is skipped; a directory rule applied to a file checks the
ancestor segments via `pathContainsDir`; a directory rule applied to a
directory checks every segment; a file rule checks the base name and the
full path. -/
def ShouldExclude : List compiledRule → List Char → Bool → Bool
  | [], _, _ => false
  | cr :: rest, path, isDir =>
    match cr.regex with
    | none => ShouldExclude rest path isDir
    | some re =>
      if cr.rule.IsDir && !isDir then
        (if pathContainsDir re path then true else ShouldExclude rest path isDir)
      else if cr.rule.IsDir then
        (if (splitOnChar '/' path).any (fun part => rmatch re part) then true
         else ShouldExclude rest path isDir)
      else
        (if rmatch re (baseName path) || rmatch re path then true
         else ShouldExclude rest path isDir)

/-- Whether one compiled rule alone fires on the given path; `ShouldExclude`
is the disjunction of this over its rules. -/
def ruleHit (path : List Char) (isDir : Bool) (cr : compiledRule) : Bool :=
  match cr.regex with
  | none => false
  | some re =>
    if cr.rule.IsDir && !isDir then pathContainsDir re path
    else if cr.rule.IsDir then (splitOnChar '/' path).any (fun part => rmatch re part)
    else rmatch re (baseName path) || rmatch re path

/-- Whether one compiled rule's regex matches one path segment (used to state
the directory-rule properties; `none` regexes match nothing). -/
def crSegHit (cr : compiledRule) (seg : List Char) : Bool :=
  match cr.regex with
  | none => false
  | some re => rmatch re seg

/-- Embedding of `models.DiffItem` (types.go); the Go field `Type` is `kind`. -/
structure DiffItem where
  RelPath : List Char
  kind : List Char
  Selected : Bool
  SourcePath : List Char
deriving DecidableEq, Repr

/-- Embedding of `models.CompareResult` (types.go). -/
structure CompareResult where
  Items : List DiffItem
  TotalFiles : Nat
  Added : Nat
  Modified : Nat
  Deleted : Nat
deriving DecidableEq, Repr

/-- One progress callback invocation `(current, total, message)`. -/
structure ProgressEvent where
  current : Nat
  total : Nat
  message : List Char
deriving DecidableEq, Repr

/-- An MD5 digest, modelled as its byte sequence. -/
abbrev Hash := List Nat

/-- One value of the working-directory file map built by
`getAllFilesAndDirs`: the absolute path, together with the outcome of
`fileHash` on it (`none` = the hash read failed). -/
structure WorkEntry where
  absPath : List Char
  hash : Option Hash
deriving DecidableEq, Repr

/-- The progress message `fmt.Sprintf("检查: %s", relPath)` of `Compare`. -/
def msgCheck (relPath : List Char) : List Char :=
  "检查: ".toList ++ relPath

/-- The `Deleted` item `Compare` appends for an archive-only path. -/
def mkDeleted (relPath : List Char) : DiffItem :=
  { RelPath := relPath, kind := "deleted".toList, Selected := true, SourcePath := [] }

/-- The `Modified` item `Compare` appends for a changed path. -/
def mkModified (relPath absPath : List Char) : DiffItem :=
  { RelPath := relPath, kind := "modified".toList, Selected := true, SourcePath := absPath }

/-- The `Added` item `Compare` appends for a working-directory-only path. -/
def mkAdded (relPath absPath : List Char) : DiffItem :=
  { RelPath := relPath, kind := "added".toList, Selected := true, SourcePath := absPath }

/-- Identity on paths: `filepath.ToSlash` on the already-normalized keys the
walk produced (`getAllFilesAndDirs` itself stores slashed keys). -/
def toSlash (p : List Char) : List Char := p

/-- Embedding of the first `Compare` loop (compare.go, `for relPath, zipFile
:= range zipFiles`).  `excl` is `c.shouldExclude`; the archive map entry
carries the outcome of `getZipFileHash` (`none` = hash failure); `works` is
the working-directory map.  Returns the appended items, the emitted progress
events and the final `processed` counter.  An excluded path is skipped before
the counter is incremented; a missing working file yields `Deleted`; a hash
failure on either side silently yields nothing; differing hashes yield
`Modified` with the working file's absolute path. -/
def compareZipLoop (excl : List Char → Bool → Bool) (works : List (List Char × WorkEntry))
    (total : Nat) : List (List Char × Option Hash) → Nat →
    List DiffItem × (List ProgressEvent × Nat)
  | [], processed => ([], ([], processed))
  | (relPath, zipHash) :: rest, processed =>
    if excl relPath false then compareZipLoop excl works total rest processed
    else
      let ev : ProgressEvent :=
        { current := processed + 1, total := total, message := msgCheck relPath }
      let r := compareZipLoop excl works total rest (processed + 1)
      ((match List.lookup relPath works with
        | none => mkDeleted relPath :: r.1
        | some w =>
          match zipHash, w.hash with
          | some zh, some wh =>
            if zh == wh then r.1 else mkModified relPath w.absPath :: r.1
          | _, _ => r.1),
       (ev :: r.2.1, r.2.2))

/-- Embedding of the second `Compare` loop (compare.go, `for relPath,
workFilePath := range workFiles`): a non-excluded working path absent from
the archive map yields `Added`. -/
def compareWorkLoop (excl : List Char → Bool → Bool) (zips : List (List Char × Option Hash))
    (total : Nat) : List (List Char × WorkEntry) → Nat →
    List DiffItem × (List ProgressEvent × Nat)
  | [], processed => ([], ([], processed))
  | (relPath, w) :: rest, processed =>
    if excl relPath false then compareWorkLoop excl zips total rest processed
    else
      let ev : ProgressEvent :=
        { current := processed + 1, total := total, message := msgCheck relPath }
      let r := compareWorkLoop excl zips total rest (processed + 1)
      ((match List.lookup (toSlash relPath) zips with
        | none => mkAdded relPath w.absPath :: r.1
        | some _ => r.1),
       (ev :: r.2.1, r.2.2))

/-- Count of items of one kind; the source increments `result.Added` /
`result.Modified` / `result.Deleted` exactly when it appends an item of that
kind, which tallies to this count. -/
def countKind (k : List Char) (items : List DiffItem) : Nat :=
  items.countP (fun it => it.kind == k)

/-- Embedding of `Comparer.Compare` (compare.go) after both file maps are
built: `total` is `len(zipFiles) + len(workFiles)`, the two loops run in
order sharing the `processed` counter, `TotalFiles` is the number of emitted
items.  The function also returns the full progress trace.  It is total: no
error path exists once both listings are given. -/
def Compare (excl : List Char → Bool → Bool) (zips : List (List Char × Option Hash))
    (works : List (List Char × WorkEntry)) : CompareResult × List ProgressEvent :=
  let total := zips.length + works.length
  let r1 := compareZipLoop excl works total zips 0
  let r2 := compareWorkLoop excl zips total works r1.2.2
  let items := r1.1 ++ r2.1
  ({ Items := items, TotalFiles := items.length,
     Added := countKind "added".toList items,
     Modified := countKind "modified".toList items,
     Deleted := countKind "deleted".toList items },
   r1.2.1 ++ r2.2.1)

/-- The per-archive-entry contribution of the first loop (its body, minus
progress bookkeeping): `compareZipLoop` emits exactly these items in order. -/
def zipEmit (excl : List Char → Bool → Bool) (works : List (List Char × WorkEntry))
    (e : List Char × Option Hash) : Option DiffItem :=
  if excl e.1 false then none
  else
    match List.lookup e.1 works with
    | none => some (mkDeleted e.1)
    | some w =>
      match e.2, w.hash with
      | some zh, some wh => if zh == wh then none else some (mkModified e.1 w.absPath)
      | _, _ => none

/-- The per-working-entry contribution of the second loop. -/
def workEmit (excl : List Char → Bool → Bool) (zips : List (List Char × Option Hash))
    (e : List Char × WorkEntry) : Option DiffItem :=
  if excl e.1 false then none
  else
    match List.lookup (toSlash e.1) zips with
    | none => some (mkAdded e.1 e.2.absPath)
    | some _ => none

/-- One entry of the open archive (`zip.File`): its stored name and whether
it is a directory entry. -/
structure ZipEntry where
  name : List Char
  isDir : Bool
deriving DecidableEq, Repr, Inhabited

/-- Model of Go `strings.TrimPrefix`: drop `pre` from the front when it is a
prefix, otherwise return the string unchanged. -/
def trimLead (pre s : List Char) : List Char :=
  if pre.isPrefixOf s then s.drop pre.length else s

/-- Embedding of `ZipReader.GetRootFolder` (archive.go): the first segment of
the first entry's name, after trimming one leading `/`.  (`strings.Split`
never returns an empty list, so the Go `len(parts) > 0` guard always takes
the first segment; `headI` of the never-empty split models that.) -/
def GetRootFolder : List ZipEntry → List Char
  | [] => []
  | e :: _ => (splitOnChar '/' (trimLead "/".toList e.name)).headI

/-- The path rewrite `ListFiles` applies to one entry name: strip
`root ++ "/"` from the front when the root is non-empty and is such a
prefix, otherwise keep the name unchanged. -/
def stripRoot (root n : List Char) : List Char :=
  if root ≠ [] ∧ (root ++ "/".toList).isPrefixOf n then n.drop (root.length + 1) else n

/-- Embedding of the `ZipReader.ListFiles` loop (archive.go), given the
inferred root: directory entries are skipped, every file entry's name is
rewritten with `stripRoot`, and an empty resulting path is dropped.  The Go
`map` assignment sequence is modelled as the association list of insertions
in entry order. -/
def listFilesLoop (root : List Char) : List ZipEntry → List (List Char × ZipEntry)
  | [] => []
  | f :: rest =>
    if f.isDir then listFilesLoop root rest
    else
      let relPath := toSlash (stripRoot root f.name)
      if relPath ≠ [] then (relPath, f) :: listFilesLoop root rest
      else listFilesLoop root rest

/-- Embedding of `ZipReader.ListFiles` (archive.go). -/
def ListFiles (entries : List ZipEntry) : List (List Char × ZipEntry) :=
  listFilesLoop (GetRootFolder entries) entries

/-- The filesystem effects `ExportDiffs` needs: whether `os.MkdirAll` on the
output directory succeeds, and whether `copyFile src dest` (which includes
its own `MkdirAll` on `dest`'s parent) succeeds. -/
structure ExportFS where
  mkdirOk : Bool
  copy : List Char → List Char → Bool

/-- Model of `filepath.Join outputDir relPath` for the clean slash-separated
paths in scope. -/
def joinPath (dir rel : List Char) : List Char :=
  dir ++ '/' :: rel

/-- The progress message `fmt.Sprintf("导出: %s", item.RelPath)`. -/
def msgExport (relPath : List Char) : List Char :=
  "导出: ".toList ++ relPath

/-- The error text of `failed to copy file %s: %w` (the wrapped cause is
elided; the copy oracle only reports success or failure). -/
def copyErrMsg (relPath : List Char) : List Char :=
  "failed to copy file ".toList ++ relPath

/-- The error text of a failing `os.MkdirAll(outputDir, 0755)`. -/
def mkdirErrMsg : List Char :=
  "failed to create output directory".toList

/-- Embedding of the `ExportDiffs` loop over `selectedItems` (compare.go):
fire progress `(i+1, total, "导出: …")`, then copy; a copy failure returns
the error at once, keeping the copies already made.  Returns the outcome,
the progress trace and the list of performed copies `(src, dest)`. -/
def exportLoop (fs : ExportFS) (outputDir : List Char) (total : Nat) :
    List DiffItem → Nat →
    Except (List Char) Unit × (List ProgressEvent × List (List Char × List Char))
  | [], _ => (Except.ok (), ([], []))
  | item :: rest, i =>
    let ev : ProgressEvent := { current := i + 1, total := total, message := msgExport item.RelPath }
    let dest := joinPath outputDir item.RelPath
    if fs.copy item.SourcePath dest then
      let r := exportLoop fs outputDir total rest (i + 1)
      (r.1, (ev :: r.2.1, (item.SourcePath, dest) :: r.2.2))
    else
      (Except.error (copyErrMsg item.RelPath), ([ev], []))

/-- Embedding of `ExportDiffs` (compare.go): create the output directory
(fatal on failure), filter to the selected, non-deleted items, then copy them
sequentially. -/
def ExportDiffs (fs : ExportFS) (items : List DiffItem) (outputDir : List Char) :
    Except (List Char) Unit × (List ProgressEvent × List (List Char × List Char)) :=
  if !fs.mkdirOk then (Except.error mkdirErrMsg, ([], []))
  else
    let selectedItems := items.filter (fun it => it.Selected && !(it.kind == "deleted".toList))
    exportLoop fs outputDir selectedItems.length selectedItems 0

/-- The three diff operations of the text differ. -/
inductive DiffOp : Type
  | delete : DiffOp
  | insert : DiffOp
  | equal : DiffOp
deriving DecidableEq, Repr

/-- One span returned by the underlying diff engine. -/
structure DiffSpan where
  op : DiffOp
  text : List Char
deriving DecidableEq, Repr

/-- Embedding of `models.DiffLine` (types.go); the Go field `Type` is `kind`. -/
structure DiffLine where
  kind : List Char
  Content : List Char
deriving DecidableEq, Repr

/-- Embedding of `models.TextDiff` (types.go). -/
structure TextDiff where
  OldContent : List Char
  NewContent : List Char
  Lines : List DiffLine
deriving DecidableEq, Repr

/-- The `switch diff.Type` of `CompareTexts` (diff.go). -/
def opName : DiffOp → List Char
  | DiffOp.insert => "insert".toList
  | DiffOp.delete => "delete".toList
  | DiffOp.equal => "equal".toList

/-- The per-span line loop of `CompareTexts` (diff.go): every line of the
span is kept except a final empty one (the artifact of a span ending in a
newline). -/
def keepLines : List (List Char) → List (List Char)
  | [] => []
  | [l] => if l = [] then [] else [l]
  | l :: ls => l :: keepLines ls

/-- Embedding of `TextDiffer` (diff.go): its engine field `dmp` stands for
`DiffCleanupSemantic ∘ DiffMain` of the external go-diff library, supplied
as data since the library is not part of this repository. -/
structure TextDiffer where
  dmp : List Char → List Char → List DiffSpan

/-- Embedding of `TextDiffer.CompareTexts` (diff.go): run the engine, then
flatten every span into per-line records via `keepLines`. -/
def CompareTexts (d : TextDiffer) (oldText newText : List Char) : TextDiff :=
  let diffs := d.dmp oldText newText
  { OldContent := oldText, NewContent := newText,
    Lines := diffs.flatMap (fun df =>
      (keepLines (splitOnChar '\n' df.text)).map (fun l =>
        { kind := opName df.op, Content := l })) }

/-- The behavior of the go-diff engine on identical inputs, as documented by
the library (`DiffMain` returns a single equality span for equal non-empty
texts and nothing for empty ones, and `DiffCleanupSemantic` keeps it). -/
def dmpEqualId (d : TextDiffer) (a : List Char) : Prop :=
  d.dmp a a = if a = [] then [] else [{ op := DiffOp.equal, text := a }]

/-- Joining line records back on line boundaries. -/
def joinWith (sep : Char) : List (List Char) → List Char
  | [] => []
  | [s] => s
  | s :: ss => s ++ sep :: joinWith sep ss

theorem shouldExclude_eq_any (crs : List compiledRule) (path : List Char) (isDir : Bool) :
    ShouldExclude crs path isDir = crs.any (ruleHit path isDir) := by
  induction crs with
  | nil => rfl
  | cons cr rest ih =>
    simp only [ShouldExclude, List.any_cons, ruleHit]
    cases hre : cr.regex with
    | none => simp [ih]
    | some re =>
      cases hd : cr.rule.IsDir with
      | false =>
        by_cases h5 : rmatch re (baseName path) || rmatch re path <;>
          simp [hd, h5, ih, Bool.or_assoc]
      | true =>
        cases isDir with
        | false =>
          by_cases h2 : pathContainsDir re path <;> simp [hd, h2, ih, Bool.or_assoc]
        | true =>
          by_cases h4 : (splitOnChar '/' path).any (fun part => rmatch re part) <;>
            simp [hd, h4, ih, Bool.or_assoc]

theorem starLoop_isEmpty (banned : Char) (s : List Char) :
    starLoop banned (fun t => t.isEmpty) s = !s.contains banned := by
  induction s with
  | nil => rfl
  | cons c rest ih =>
    simp only [starLoop, List.isEmpty_cons, Bool.false_or, List.contains_cons, Bool.not_or]
    by_cases hc : c = banned
    · subst hc; simp
    · have h1 : (c == banned) = false := beq_eq_false_iff_ne.mpr hc
      have h2 : (banned == c) = false := beq_eq_false_iff_ne.mpr (Ne.symm hc)
      simp [bne, h1, h2, ih]

theorem rmatch_dotStar (s : List Char) : rmatch [RItem.dotStar] s = !s.contains '\n' := by
  rw [show rmatch [RItem.dotStar] s = starLoop '\n' (fun t => t.isEmpty) s from rfl]
  exact starLoop_isEmpty '\n' s

theorem rmatch_nonSlashStar (s : List Char) :
    rmatch [RItem.nonSlashStar] s = !s.contains '/' := by
  rw [show rmatch [RItem.nonSlashStar] s = starLoop '/' (fun t => t.isEmpty) s from rfl]
  exact starLoop_isEmpty '/' s

theorem rmatch_dot (s : List Char) :
    rmatch [RItem.dot] s = (s.length == 1 && !s.contains '\n') := by
  match s with
  | [] => rfl
  | [c] =>
    simp only [rmatch, List.contains_cons]
    by_cases hc : c = '\n'
    · subst hc; simp
    · simp [hc, Ne.symm hc, bne]
  | c :: d :: rest =>
    simp [rmatch]

/-- C2: the glob-to-regex translation is anchored, escapes literal
characters, and translates `**`, `*`, `?` as the spec says — except that,
with Go regexp's default (RE2) semantics, the `.`-based forms produced for
`**` and `?` do not match a newline character.  A `**` pattern matches any
newline-free sequence, `/` included; `*` matches any slash-free sequence;
`?` matches exactly one non-newline character; `*.log` matches `app.log` and
the base name of `dir/app.log` but not `app.log.bak`; `**/test` matches
`a/b/test`; a single `*` never crosses a `/`; literals and anchoring behave
as claimed. -/
theorem C2_glob_translation :
    (∀ s, globMatches "**".toList s = !s.contains '\n') ∧
    (∀ s, globMatches "*".toList s = !s.contains '/') ∧
    (∀ s, globMatches "?".toList s = (s.length == 1 && !s.contains '\n')) ∧
    globMatches "a.b".toList "a.b".toList = true ∧
    globMatches "a.b".toList "axb".toList = false ∧
    globMatches "log".toList "app.log".toList = false ∧
    globMatches "*.log".toList "app.log".toList = true ∧
    globMatches "*.log".toList (baseName "dir/app.log".toList) = true ∧
    globMatches "*.log".toList "app.log.bak".toList = false ∧
    globMatches "**/test".toList "a/b/test".toList = true ∧
    globMatches "*".toList "a/b".toList = false := by
  have hss : parseRegex (globToRegex "**".toList) = some [RItem.dotStar] := by decide
  have hs : parseRegex (globToRegex "*".toList) = some [RItem.nonSlashStar] := by decide
  have hq : parseRegex (globToRegex "?".toList) = some [RItem.dot] := by decide
  refine ⟨?_, ?_, ?_, by decide, by decide, by decide, by decide, by decide, by decide,
    by decide, by decide⟩
  · intro s
    unfold globMatches
    rw [hss]
    exact rmatch_dotStar s
  · intro s
    unfold globMatches
    rw [hs]
    exact rmatch_nonSlashStar s
  · intro s
    unfold globMatches
    rw [hq]
    exact rmatch_dot s

/-- C2 counterexample: as claimed, `?` would match every one-character
subject and `**` every sequence; under Go regexp's default semantics the
translated `.` and `.*` do not match a newline, so the one-character subject
`"\n"` is rejected by `?` and `"a\nb"` is rejected by `**`. -/
theorem C2_glob_newline_counterexample :
    "\n".toList.length = 1 ∧
    globMatches "?".toList "\n".toList = false ∧
    globMatches "**".toList "a\nb".toList = false := by
  decide

/-- C3: a directory-scoped rule propagates: if some segment of the path —
any segment for a directory path, any ancestor (non-final) segment for a
file path — matches an enabled compiled rule with `IsDir`, then
`ShouldExclude` is true. -/
theorem C3_directory_rule_propagation (crs : List compiledRule) (cr : compiledRule)
    (path : List Char) (isDir : Bool) (hmem : cr ∈ crs) (hdir : cr.rule.IsDir = true)
    (hhit : ∃ seg ∈ (if isDir then splitOnChar '/' path else (splitOnChar '/' path).dropLast),
      crSegHit cr seg = true) :
    ShouldExclude crs path isDir = true := by
  rw [shouldExclude_eq_any, List.any_eq_true]
  refine ⟨cr, hmem, ?_⟩
  obtain ⟨seg, hseg, hm⟩ := hhit
  unfold crSegHit at hm
  cases hre : cr.regex with
  | none => rw [hre] at hm; exact absurd hm (by simp)
  | some re =>
    rw [hre] at hm
    unfold ruleHit
    rw [hre]
    cases isDir with
    | true =>
      rw [if_pos rfl] at hseg
      simp only [hdir, Bool.not_true, Bool.and_false]
      rw [if_pos trivial]
      exact List.any_eq_true.mpr ⟨seg, hseg, hm⟩
    | false =>
      rw [if_neg (by simp)] at hseg
      simp only [hdir, Bool.not_false, Bool.and_true]
      rw [if_pos trivial]
      exact List.any_eq_true.mpr ⟨seg, hseg, hm⟩

theorem C3_directory_rule_propagation_witness :
    ShouldExclude
      (compile parseRegex [⟨"bin".toList, "glob".toList, true, true, []⟩])
      "x/bin/y/z.txt".toList false = true ∧
    ShouldExclude
      (compile parseRegex [⟨"bin".toList, "glob".toList, true, true, []⟩])
      "bin".toList true = true := by
  constructor
  · exact C3_directory_rule_propagation _
      ⟨⟨"bin".toList, "glob".toList, true, true, []⟩,
        some [RItem.lit 'b', RItem.lit 'i', RItem.lit 'n'], "bin".toList⟩
      _ false (by decide) rfl ⟨"bin".toList, by decide, by decide⟩
  · exact C3_directory_rule_propagation _
      ⟨⟨"bin".toList, "glob".toList, true, true, []⟩,
        some [RItem.lit 'b', RItem.lit 'i', RItem.lit 'n'], "bin".toList⟩
      _ true (by decide) rfl ⟨"bin".toList, by decide, by decide⟩

/-- C10: for a file path (isDir hint false), a set of directory-scoped rules
only ever tests the strict ancestor segments: when no ancestor segment of
the path matches any rule, the path is not excluded — even if its own final
segment would match. -/
theorem C10_file_final_segment_not_tested (crs : List compiledRule) (path : List Char)
    (hall : ∀ cr ∈ crs, cr.rule.IsDir = true)
    (hanc : ∀ cr ∈ crs, ∀ seg ∈ (splitOnChar '/' path).dropLast, crSegHit cr seg = false) :
    ShouldExclude crs path false = false := by
  rw [shouldExclude_eq_any, List.any_eq_false]
  intro cr hmem
  rw [Bool.not_eq_true]
  have hdir := hall cr hmem
  unfold ruleHit
  cases hre : cr.regex with
  | none => simp
  | some re =>
    simp only [hdir, Bool.not_false, Bool.and_true, if_true]
    unfold pathContainsDir
    rw [List.any_eq_false]
    intro seg hseg
    rw [Bool.not_eq_true]
    have := hanc cr hmem seg hseg
    unfold crSegHit at this
    rw [hre] at this
    exact this

theorem C10_file_final_segment_not_tested_witness :
    ShouldExclude
      (compile parseRegex [⟨"bin".toList, "glob".toList, true, true, []⟩])
      "bin".toList false = false := by
  exact C10_file_final_segment_not_tested _ _ (by decide) (by decide)

theorem any_ruleHit_filter (crs : List compiledRule) (path : List Char) (isDir : Bool) :
    crs.any (ruleHit path isDir) =
      (crs.filter (fun cr => cr.regex.isSome)).any (ruleHit path isDir) := by
  induction crs with
  | nil => rfl
  | cons cr rest ih =>
    cases hre : cr.regex with
    | none =>
      have hhit : ruleHit path isDir cr = false := by unfold ruleHit; rw [hre]
      simp [List.filter_cons, hre, hhit, ih]
    | some re =>
      simp [List.filter_cons, hre, ih]

/-- C8: a rule whose pattern fails to compile (regex `none`) is inert —
matcher construction is a total function and `ShouldExclude` behaves exactly
as with only the successfully compiled rules; in particular the rule set
`{bad regex "[", glob "*.log"}` behaves on every input like the set
`{glob "*.log"}` alone. -/
theorem C8_failed_pattern_inert :
    (∀ crs path isDir, ShouldExclude crs path isDir =
      ShouldExclude (crs.filter (fun cr => cr.regex.isSome)) path isDir) ∧
    (∀ path isDir,
      ShouldExclude (compile parseRegex
        [⟨"[".toList, "regex".toList, false, true, []⟩,
         ⟨"*.log".toList, "glob".toList, false, true, []⟩]) path isDir =
      ShouldExclude (compile parseRegex
        [⟨"*.log".toList, "glob".toList, false, true, []⟩]) path isDir) := by
  constructor
  · intro crs path isDir
    rw [shouldExclude_eq_any, shouldExclude_eq_any]
    exact any_ruleHit_filter crs path isDir
  · intro path isDir
    rfl

theorem lookup_none_not_mem {β : Type} {p : List Char} {l : List (List Char × β)}
    (h : List.lookup p l = none) : p ∉ l.map Prod.fst := by
  induction l with
  | nil => simp
  | cons e rest ih =>
    obtain ⟨a, b⟩ := e
    cases hpa : p == a with
    | true => simp [List.lookup, hpa] at h
    | false =>
      simp only [List.lookup, hpa] at h
      simp only [List.map_cons, List.mem_cons]
      rintro (rfl | hmem)
      · simp at hpa
      · exact ih h hmem

theorem lookup_some_of_mem_nodup {β : Type} {l : List (List Char × β)} {p : List Char} {v : β}
    (hnd : (l.map Prod.fst).Nodup) (hmem : (p, v) ∈ l) : List.lookup p l = some v := by
  induction l with
  | nil => simp at hmem
  | cons e rest ih =>
    rw [List.map_cons, List.nodup_cons] at hnd
    rcases List.mem_cons.mp hmem with heq | hmem2
    · cases heq
      simp [List.lookup]
    · have hkey : p ∈ rest.map Prod.fst := List.mem_map.mpr ⟨(p, v), hmem2, rfl⟩
      have hpa : (p == e.1) = false :=
        beq_eq_false_iff_ne.mpr (fun hh => hnd.1 (hh ▸ hkey))
      obtain ⟨a, b⟩ := e
      simp only [List.lookup, hpa]
      exact ih hnd.2 hmem2

theorem filterMap_filter_not_mem {β : Type} (f : List Char × β → Option DiffItem)
    (hf : ∀ e it, f e = some it → it.RelPath = e.1)
    {l : List (List Char × β)} {p : List Char} (hp : p ∉ l.map Prod.fst) :
    (l.filterMap f).filter (fun it => it.RelPath == p) = [] := by
  induction l with
  | nil => rfl
  | cons e rest ih =>
    simp only [List.map_cons, List.mem_cons, not_or] at hp
    rw [List.filterMap_cons]
    cases hfe : f e with
    | none => exact ih hp.2
    | some it =>
      have hrel : it.RelPath = e.1 := hf e it hfe
      have hne : (it.RelPath == p) = false := by
        refine beq_eq_false_iff_ne.mpr ?_
        rw [hrel]
        exact fun hh => hp.1 hh.symm
      simp only [List.filter_cons, hne, Bool.false_eq_true, if_false]
      exact ih hp.2

theorem filterMap_filter_mem {β : Type} (f : List Char × β → Option DiffItem)
    (hf : ∀ e it, f e = some it → it.RelPath = e.1)
    {l : List (List Char × β)} {p : List Char} {v : β}
    (hnd : (l.map Prod.fst).Nodup) (hmem : (p, v) ∈ l) :
    (l.filterMap f).filter (fun it => it.RelPath == p) = (f (p, v)).toList := by
  induction l with
  | nil => simp at hmem
  | cons e rest ih =>
    rw [List.map_cons, List.nodup_cons] at hnd
    rcases List.mem_cons.mp hmem with heq | hmem2
    · cases heq
      rw [List.filterMap_cons]
      cases hfe : f (p, v) with
      | none => exact filterMap_filter_not_mem f hf hnd.1
      | some it =>
        have hrel : it.RelPath = p := hf _ it hfe
        have htrue : (it.RelPath == p) = true := by rw [hrel]; exact beq_self_eq_true p
        show (it :: List.filterMap f rest).filter (fun x => x.RelPath == p) = [it]
        simp only [List.filter_cons, htrue, if_true]
        rw [filterMap_filter_not_mem f hf hnd.1]
    · have hkey : p ∈ rest.map Prod.fst := List.mem_map.mpr ⟨(p, v), hmem2, rfl⟩
      have hne1 : e.1 ≠ p := fun hh => hnd.1 (hh ▸ hkey)
      rw [List.filterMap_cons]
      cases hfe : f e with
      | none => exact ih hnd.2 hmem2
      | some it =>
        have hrel : it.RelPath = e.1 := hf e it hfe
        have hne : (it.RelPath == p) = false := by
          refine beq_eq_false_iff_ne.mpr ?_
          rw [hrel]
          exact hne1
        simp only [List.filter_cons, hne, Bool.false_eq_true, if_false]
        exact ih hnd.2 hmem2

theorem zipEmit_relPath (excl : List Char → Bool → Bool) (works : List (List Char × WorkEntry))
    (e : List Char × Option Hash) (it : DiffItem) (h : zipEmit excl works e = some it) :
    it.RelPath = e.1 := by
  by_cases hex : excl e.1 false
  · rw [show zipEmit excl works e = none from by simp [zipEmit, hex]] at h
    cases h
  · cases hl : List.lookup e.1 works with
    | none =>
      rw [show zipEmit excl works e = some (mkDeleted e.1) from by simp [zipEmit, hex, hl]] at h
      cases h
      rfl
    | some w =>
      cases e2 : e.2 with
      | none =>
        rw [show zipEmit excl works e = none from by simp [zipEmit, hex, hl, e2]] at h
        cases h
      | some zh =>
        cases hw : w.hash with
        | none =>
          rw [show zipEmit excl works e = none from by simp [zipEmit, hex, hl, e2, hw]] at h
          cases h
        | some wh =>
          by_cases hzw : zh == wh
          · rw [show zipEmit excl works e = none from by
              simp [zipEmit, hex, hl, e2, hw, hzw]] at h
            cases h
          · rw [show zipEmit excl works e = some (mkModified e.1 w.absPath) from by
              simp [zipEmit, hex, hl, e2, hw, hzw]] at h
            cases h
            rfl

theorem workEmit_relPath (excl : List Char → Bool → Bool) (zips : List (List Char × Option Hash))
    (e : List Char × WorkEntry) (it : DiffItem) (h : workEmit excl zips e = some it) :
    it.RelPath = e.1 := by
  by_cases hex : excl e.1 false
  · rw [show workEmit excl zips e = none from by simp [workEmit, hex]] at h
    cases h
  · cases hl : List.lookup (toSlash e.1) zips with
    | none =>
      rw [show workEmit excl zips e = some (mkAdded e.1 e.2.absPath) from by
        simp [workEmit, hex, hl]] at h
      cases h
      rfl
    | some z =>
      rw [show workEmit excl zips e = none from by simp [workEmit, hex, hl]] at h
      cases h

theorem compareZipLoop_items (excl : List Char → Bool → Bool)
    (works : List (List Char × WorkEntry)) (total : Nat) :
    ∀ (zips : List (List Char × Option Hash)) (processed : Nat),
      (compareZipLoop excl works total zips processed).1 =
        zips.filterMap (zipEmit excl works) := by
  intro zips
  induction zips with
  | nil => intro processed; rfl
  | cons e rest ih =>
    intro processed
    obtain ⟨relPath, zipHash⟩ := e
    by_cases hex : excl relPath false
    · have hemit : zipEmit excl works (relPath, zipHash) = none := by simp [zipEmit, hex]
      simp [compareZipLoop, hex, List.filterMap_cons, hemit, ih]
    · cases hl : List.lookup relPath works with
      | none =>
        have hemit : zipEmit excl works (relPath, zipHash) = some (mkDeleted relPath) := by
          simp [zipEmit, hex, hl]
        simp [compareZipLoop, hex, List.filterMap_cons, hemit, hl, ih]
      | some w =>
        cases zipHash with
        | none =>
          have hemit : zipEmit excl works (relPath, none) = none := by
            simp [zipEmit, hex, hl]
          simp [compareZipLoop, hex, List.filterMap_cons, hemit, hl, ih]
        | some zh =>
          cases hw : w.hash with
          | none =>
            have hemit : zipEmit excl works (relPath, some zh) = none := by
              simp [zipEmit, hex, hl, hw]
            simp [compareZipLoop, hex, List.filterMap_cons, hemit, hl, hw, ih]
          | some wh =>
            by_cases hzw : zh == wh
            · have hemit : zipEmit excl works (relPath, some zh) = none := by
                simp [zipEmit, hex, hl, hw, hzw]
              simp [compareZipLoop, hex, List.filterMap_cons, hemit, hl, hw, hzw, ih]
            · have hemit : zipEmit excl works (relPath, some zh) =
                  some (mkModified relPath w.absPath) := by
                simp [zipEmit, hex, hl, hw, hzw]
              simp [compareZipLoop, hex, List.filterMap_cons, hemit, hl, hw, hzw, ih]

theorem compareWorkLoop_items (excl : List Char → Bool → Bool)
    (zips : List (List Char × Option Hash)) (total : Nat) :
    ∀ (works : List (List Char × WorkEntry)) (processed : Nat),
      (compareWorkLoop excl zips total works processed).1 =
        works.filterMap (workEmit excl zips) := by
  intro works
  induction works with
  | nil => intro processed; rfl
  | cons e rest ih =>
    intro processed
    obtain ⟨relPath, w⟩ := e
    by_cases hex : excl relPath false
    · have hemit : workEmit excl zips (relPath, w) = none := by simp [workEmit, hex]
      simp [compareWorkLoop, hex, List.filterMap_cons, hemit, ih]
    · cases hl : List.lookup (toSlash relPath) zips with
      | none =>
        have hemit : workEmit excl zips (relPath, w) = some (mkAdded relPath w.absPath) := by
          simp [workEmit, hex, hl]
        simp [compareWorkLoop, hex, List.filterMap_cons, hemit, hl, ih]
      | some z =>
        have hemit : workEmit excl zips (relPath, w) = none := by
          simp [workEmit, hex, hl]
        simp [compareWorkLoop, hex, List.filterMap_cons, hemit, hl, ih]

theorem Compare_items (excl : List Char → Bool → Bool) (zips : List (List Char × Option Hash))
    (works : List (List Char × WorkEntry)) :
    (Compare excl zips works).1.Items =
      zips.filterMap (zipEmit excl works) ++ works.filterMap (workEmit excl zips) := by
  simp only [Compare]
  rw [compareZipLoop_items, compareWorkLoop_items]

theorem compareZipLoop_trace (excl : List Char → Bool → Bool)
    (works : List (List Char × WorkEntry)) (total : Nat) :
    ∀ (zips : List (List Char × Option Hash)) (processed : Nat),
      (compareZipLoop excl works total zips processed).2.1 =
        List.zipWith (fun i p => ProgressEvent.mk i total (msgCheck p))
          (List.range' (processed + 1)
            ((zips.map Prod.fst).filter (fun q => !excl q false)).length)
          ((zips.map Prod.fst).filter (fun q => !excl q false)) ∧
      (compareZipLoop excl works total zips processed).2.2 =
        processed + ((zips.map Prod.fst).filter (fun q => !excl q false)).length := by
  intro zips
  induction zips with
  | nil => intro processed; exact ⟨rfl, rfl⟩
  | cons e rest ih =>
    intro processed
    obtain ⟨relPath, zipHash⟩ := e
    by_cases hex : excl relPath false
    · constructor
      · simp [compareZipLoop, hex, List.filter_cons, (ih processed).1]
      · simp [compareZipLoop, hex, List.filter_cons, (ih processed).2]
    · constructor
      · simp [compareZipLoop, hex, List.filter_cons, List.range'_succ,
          (ih (processed + 1)).1]
      · simp only [compareZipLoop, hex, Bool.false_eq_true, if_false, List.map_cons,
          List.filter_cons]
        simp [hex, (ih (processed + 1)).2]
        omega

theorem compareWorkLoop_trace (excl : List Char → Bool → Bool)
    (zips : List (List Char × Option Hash)) (total : Nat) :
    ∀ (works : List (List Char × WorkEntry)) (processed : Nat),
      (compareWorkLoop excl zips total works processed).2.1 =
        List.zipWith (fun i p => ProgressEvent.mk i total (msgCheck p))
          (List.range' (processed + 1)
            ((works.map Prod.fst).filter (fun q => !excl q false)).length)
          ((works.map Prod.fst).filter (fun q => !excl q false)) ∧
      (compareWorkLoop excl zips total works processed).2.2 =
        processed + ((works.map Prod.fst).filter (fun q => !excl q false)).length := by
  intro works
  induction works with
  | nil => intro processed; exact ⟨rfl, rfl⟩
  | cons e rest ih =>
    intro processed
    obtain ⟨relPath, w⟩ := e
    by_cases hex : excl relPath false
    · constructor
      · simp [compareWorkLoop, hex, List.filter_cons, (ih processed).1]
      · simp [compareWorkLoop, hex, List.filter_cons, (ih processed).2]
    · constructor
      · simp [compareWorkLoop, hex, List.filter_cons, List.range'_succ,
          (ih (processed + 1)).1]
      · simp only [compareWorkLoop, hex, Bool.false_eq_true, if_false, List.map_cons,
          List.filter_cons]
        simp [hex, (ih (processed + 1)).2]
        omega

theorem zipWith_events_append (total : Nat) (l1 l2 : List (List Char)) (s : Nat) :
    List.zipWith (fun i p => ProgressEvent.mk i total (msgCheck p))
        (List.range' s l1.length) l1 ++
      List.zipWith (fun i p => ProgressEvent.mk i total (msgCheck p))
        (List.range' (l1.length + s) l2.length) l2 =
    List.zipWith (fun i p => ProgressEvent.mk i total (msgCheck p))
      (List.range' s (l1.length + l2.length)) (l1 ++ l2) := by
  rw [show l1.length + s = s + l1.length from Nat.add_comm _ _]
  rw [← List.zipWith_append _ _ _ _ _ (by simp)]
  rw [List.range'_append_1]
  rw [Nat.add_comm l2.length l1.length]

theorem Compare_trace (excl : List Char → Bool → Bool) (zips : List (List Char × Option Hash))
    (works : List (List Char × WorkEntry)) :
    (Compare excl zips works).2 =
      List.zipWith (fun i p => ProgressEvent.mk i (zips.length + works.length) (msgCheck p))
        (List.range' 1
          (((zips.map Prod.fst).filter (fun q => !excl q false)).length +
            ((works.map Prod.fst).filter (fun q => !excl q false)).length))
        ((zips.map Prod.fst).filter (fun q => !excl q false) ++
          (works.map Prod.fst).filter (fun q => !excl q false)) := by
  have h1 := (compareZipLoop_trace excl works (zips.length + works.length) zips 0).1
  have h2 := (compareZipLoop_trace excl works (zips.length + works.length) zips 0).2
  have h3 := (compareWorkLoop_trace excl zips (zips.length + works.length) works
    ((compareZipLoop excl works (zips.length + works.length) zips 0).2.2)).1
  simp only [Compare]
  rw [h1, h3, h2]
  simp only [Nat.zero_add]
  exact zipWith_events_append (zips.length + works.length) _ _ 1

theorem event_total_of_mem_zipWith (total : Nat) :
    ∀ (l1 : List Nat) (l2 : List (List Char)) (ev : ProgressEvent),
      ev ∈ List.zipWith (fun i q => ProgressEvent.mk i total (msgCheck q)) l1 l2 →
      ev.total = total := by
  intro l1
  induction l1 with
  | nil => intro l2 ev h; simp at h
  | cons a l1 ih =>
    intro l2 ev h
    cases l2 with
    | nil => simp at h
    | cons b l2 =>
      rw [List.zipWith_cons_cons] at h
      rcases List.mem_cons.mp h with heq | h2
      · rw [heq]
      · exact ih l2 ev h2

theorem exists_event_of_mem (total : Nat) :
    ∀ (l : List (List Char)) (s : Nat) (p : List Char), p ∈ l →
      ∃ i, ProgressEvent.mk i total (msgCheck p) ∈
        List.zipWith (fun i q => ProgressEvent.mk i total (msgCheck q))
          (List.range' s l.length) l := by
  intro l
  induction l with
  | nil => intro s p h; simp at h
  | cons a l ih =>
    intro s p h
    rw [List.length_cons, List.range'_succ, List.zipWith_cons_cons]
    rcases List.mem_cons.mp h with rfl | h2
    · exact ⟨s, List.mem_cons_self _ _⟩
    · obtain ⟨i, hi⟩ := ih (s + 1) p h2
      exact ⟨i, List.mem_cons_of_mem _ hi⟩

/-- C1: classification of `Compare`, with the Go-map key uniqueness
hypotheses.  A non-excluded archive-only path yields exactly one `Deleted`
item; a non-excluded working-only path exactly one `Added` item carrying the
working absolute path; a path in both maps whose hashes are both computed
and differ yields exactly one `Modified` item whose source path is the
working absolute path; a path whose hashes agree yields no item at all. -/
theorem C1_compare_classification (excl : List Char → Bool → Bool)
    (zips : List (List Char × Option Hash)) (works : List (List Char × WorkEntry))
    (hndz : (zips.map Prod.fst).Nodup) (hndw : (works.map Prod.fst).Nodup) :
    (∀ p zh, (p, zh) ∈ zips → excl p false = false → List.lookup p works = none →
      (Compare excl zips works).1.Items.filter (fun it => it.RelPath == p) =
        [mkDeleted p]) ∧
    (∀ p w, (p, w) ∈ works → excl p false = false → List.lookup p zips = none →
      (Compare excl zips works).1.Items.filter (fun it => it.RelPath == p) =
        [mkAdded p w.absPath]) ∧
    (∀ p a w b, (p, some a) ∈ zips → (p, w) ∈ works → w.hash = some b → ¬a = b →
      excl p false = false →
      (Compare excl zips works).1.Items.filter (fun it => it.RelPath == p) =
        [mkModified p w.absPath]) ∧
    (∀ p a w, (p, some a) ∈ zips → (p, w) ∈ works → w.hash = some a →
      (Compare excl zips works).1.Items.filter (fun it => it.RelPath == p) = []) := by
  refine ⟨?_, ?_, ?_, ?_⟩
  · intro p zh hz hexcl hlw
    rw [Compare_items, List.filter_append]
    rw [filterMap_filter_mem (zipEmit excl works) (zipEmit_relPath excl works) hndz hz]
    rw [filterMap_filter_not_mem (workEmit excl zips) (workEmit_relPath excl zips)
      (lookup_none_not_mem hlw)]
    rw [show zipEmit excl works (p, zh) = some (mkDeleted p) from by
      simp [zipEmit, hexcl, hlw]]
    rfl
  · intro p w hw hexcl hlz
    rw [Compare_items, List.filter_append]
    rw [filterMap_filter_not_mem (zipEmit excl works) (zipEmit_relPath excl works)
      (lookup_none_not_mem hlz)]
    rw [filterMap_filter_mem (workEmit excl zips) (workEmit_relPath excl zips) hndw hw]
    rw [show workEmit excl zips (p, w) = some (mkAdded p w.absPath) from by
      simp [workEmit, toSlash, hexcl, hlz]]
    rfl
  · intro p a w b hz hw hwh hab hexcl
    have hlw : List.lookup p works = some w := lookup_some_of_mem_nodup hndw hw
    have hlz : List.lookup p zips = some (some a) := lookup_some_of_mem_nodup hndz hz
    have hne : (a == b) = false := beq_eq_false_iff_ne.mpr hab
    rw [Compare_items, List.filter_append]
    rw [filterMap_filter_mem (zipEmit excl works) (zipEmit_relPath excl works) hndz hz]
    rw [filterMap_filter_mem (workEmit excl zips) (workEmit_relPath excl zips) hndw hw]
    rw [show zipEmit excl works (p, some a) = some (mkModified p w.absPath) from by
      simp [zipEmit, hexcl, hlw, hwh, hne]]
    rw [show workEmit excl zips (p, w) = none from by
      simp [workEmit, toSlash, hexcl, hlz]]
    rfl
  · intro p a w hz hw hwh
    have hlw : List.lookup p works = some w := lookup_some_of_mem_nodup hndw hw
    have hlz : List.lookup p zips = some (some a) := lookup_some_of_mem_nodup hndz hz
    rw [Compare_items, List.filter_append]
    rw [filterMap_filter_mem (zipEmit excl works) (zipEmit_relPath excl works) hndz hz]
    rw [filterMap_filter_mem (workEmit excl zips) (workEmit_relPath excl zips) hndw hw]
    by_cases hexcl : excl p false
    · rw [show zipEmit excl works (p, some a) = none from by simp [zipEmit, hexcl]]
      rw [show workEmit excl zips (p, w) = none from by simp [workEmit, toSlash, hexcl]]
      rfl
    · rw [show zipEmit excl works (p, some a) = none from by
        simp [zipEmit, hexcl, hlw, hwh]]
      rw [show workEmit excl zips (p, w) = none from by
        simp [workEmit, toSlash, hexcl, hlz]]
      rfl

theorem C1_compare_classification_witness :
    ((Compare (fun _ _ => false)
        [("b".toList, some [2]), ("m".toList, some [5]), ("s".toList, some [7])]
        [("m".toList, ⟨"W/m".toList, some [6]⟩), ("s".toList, ⟨"W/s".toList, some [7]⟩),
          ("c".toList, ⟨"W/c".toList, some [3]⟩)]).1.Items.filter
      (fun it => it.RelPath == "b".toList) = [mkDeleted "b".toList]) ∧
    ((Compare (fun _ _ => false)
        [("b".toList, some [2]), ("m".toList, some [5]), ("s".toList, some [7])]
        [("m".toList, ⟨"W/m".toList, some [6]⟩), ("s".toList, ⟨"W/s".toList, some [7]⟩),
          ("c".toList, ⟨"W/c".toList, some [3]⟩)]).1.Items.filter
      (fun it => it.RelPath == "c".toList) = [mkAdded "c".toList "W/c".toList]) ∧
    ((Compare (fun _ _ => false)
        [("b".toList, some [2]), ("m".toList, some [5]), ("s".toList, some [7])]
        [("m".toList, ⟨"W/m".toList, some [6]⟩), ("s".toList, ⟨"W/s".toList, some [7]⟩),
          ("c".toList, ⟨"W/c".toList, some [3]⟩)]).1.Items.filter
      (fun it => it.RelPath == "m".toList) = [mkModified "m".toList "W/m".toList]) ∧
    ((Compare (fun _ _ => false)
        [("b".toList, some [2]), ("m".toList, some [5]), ("s".toList, some [7])]
        [("m".toList, ⟨"W/m".toList, some [6]⟩), ("s".toList, ⟨"W/s".toList, some [7]⟩),
          ("c".toList, ⟨"W/c".toList, some [3]⟩)]).1.Items.filter
      (fun it => it.RelPath == "s".toList) = []) := by
  refine ⟨?_, ?_, ?_, ?_⟩
  · exact (C1_compare_classification _ _ _ (by decide) (by decide)).1
      "b".toList (some [2]) (by decide) rfl (by decide)
  · exact (C1_compare_classification _ _ _ (by decide) (by decide)).2.1
      "c".toList ⟨"W/c".toList, some [3]⟩ (by decide) rfl (by decide)
  · exact (C1_compare_classification _ _ _ (by decide) (by decide)).2.2.1
      "m".toList [5] ⟨"W/m".toList, some [6]⟩ [6] (by decide) (by decide) (by decide)
      (by decide) rfl
  · exact (C1_compare_classification _ _ _ (by decide) (by decide)).2.2.2
      "s".toList [7] ⟨"W/s".toList, some [7]⟩ (by decide) (by decide) (by decide)

/-- C5: for a path present in both maps, a hash failure on either side makes
`Compare` emit no item for that path, surface no error (the embedded
`Compare` is a total function into `CompareResult`), and keep examining it
and the remaining paths: the progress trace still carries an event naming
the path. -/
theorem C5_hash_failure_tolerance (excl : List Char → Bool → Bool)
    (zips : List (List Char × Option Hash)) (works : List (List Char × WorkEntry))
    (hndz : (zips.map Prod.fst).Nodup) (hndw : (works.map Prod.fst).Nodup)
    (p : List Char) (zh : Option Hash) (w : WorkEntry)
    (hz : (p, zh) ∈ zips) (hw : (p, w) ∈ works)
    (hfail : zh = none ∨ w.hash = none) :
    (Compare excl zips works).1.Items.filter (fun it => it.RelPath == p) = [] ∧
    (excl p false = false →
      ∃ i, ProgressEvent.mk i (zips.length + works.length) (msgCheck p) ∈
        (Compare excl zips works).2) := by
  have hlw : List.lookup p works = some w := lookup_some_of_mem_nodup hndw hw
  have hlz : List.lookup p zips = some zh := lookup_some_of_mem_nodup hndz hz
  constructor
  · rw [Compare_items, List.filter_append]
    rw [filterMap_filter_mem (zipEmit excl works) (zipEmit_relPath excl works) hndz hz]
    rw [filterMap_filter_mem (workEmit excl zips) (workEmit_relPath excl zips) hndw hw]
    by_cases hexcl : excl p false
    · rw [show zipEmit excl works (p, zh) = none from by simp [zipEmit, hexcl]]
      rw [show workEmit excl zips (p, w) = none from by simp [workEmit, toSlash, hexcl]]
      rfl
    · rw [show workEmit excl zips (p, w) = none from by
        simp [workEmit, toSlash, hexcl, hlz]]
      rcases hfail with hfz | hfw
      · rw [show zipEmit excl works (p, zh) = none from by
          simp [zipEmit, hexcl, hlw, hfz]]
        rfl
      · rw [show zipEmit excl works (p, zh) = none from by
          cases zh <;> simp [zipEmit, hexcl, hlw, hfw]]
        rfl
  · intro hexcl
    rw [Compare_trace]
    have hp : p ∈ (zips.map Prod.fst).filter (fun q => !excl q false) ++
        (works.map Prod.fst).filter (fun q => !excl q false) := by
      refine List.mem_append_left _ (List.mem_filter.mpr ?_)
      exact ⟨List.mem_map.mpr ⟨(p, zh), hz, rfl⟩, by simp [hexcl]⟩
    have := exists_event_of_mem (zips.length + works.length) _ 1 p hp
    rwa [List.length_append] at this

theorem C5_hash_failure_tolerance_witness :
    ((Compare (fun _ _ => false) [("f".toList, none)]
        [("f".toList, ⟨"W/f".toList, some [9]⟩)]).1.Items.filter
      (fun it => it.RelPath == "f".toList) = []) ∧
    (∃ i, ProgressEvent.mk i 2 (msgCheck "f".toList) ∈
      (Compare (fun _ _ => false) [("f".toList, none)]
        [("f".toList, ⟨"W/f".toList, some [9]⟩)]).2) := by
  have h := C5_hash_failure_tolerance (fun _ _ => false) [("f".toList, none)]
    [("f".toList, ⟨"W/f".toList, some [9]⟩)] (by decide) (by decide)
    "f".toList none ⟨"W/f".toList, some [9]⟩ (by decide) (by decide) (Or.inl rfl)
  exact ⟨h.1, h.2 rfl⟩

/-- C6: the progress trace of `Compare` is exactly one event per non-excluded
path of each phase, in order, with a counter running from 1, a message naming
the path, and a total equal to the sum of the two map sizes (not the emitted
item count). -/
theorem C6_progress_reporting (excl : List Char → Bool → Bool)
    (zips : List (List Char × Option Hash)) (works : List (List Char × WorkEntry)) :
    (Compare excl zips works).2 =
      List.zipWith (fun i p => ProgressEvent.mk i (zips.length + works.length) (msgCheck p))
        (List.range' 1
          (((zips.map Prod.fst).filter (fun q => !excl q false)).length +
            ((works.map Prod.fst).filter (fun q => !excl q false)).length))
        ((zips.map Prod.fst).filter (fun q => !excl q false) ++
          (works.map Prod.fst).filter (fun q => !excl q false)) ∧
    ∀ ev ∈ (Compare excl zips works).2, ev.total = zips.length + works.length := by
  refine ⟨Compare_trace excl zips works, ?_⟩
  intro ev hev
  rw [Compare_trace] at hev
  exact event_total_of_mem_zipWith (zips.length + works.length) _ _ ev hev

theorem listFilesLoop_sound (root : List Char) :
    ∀ (l : List ZipEntry) (pr : List Char × ZipEntry), pr ∈ listFilesLoop root l →
      pr.2 ∈ l ∧ pr.2.isDir = false ∧ pr.1 = stripRoot root pr.2.name ∧ pr.1 ≠ [] := by
  intro l
  induction l with
  | nil => intro pr h; simp [listFilesLoop] at h
  | cons f rest ih =>
    intro pr h
    by_cases hd : f.isDir
    · rw [show listFilesLoop root (f :: rest) = listFilesLoop root rest from by
        simp [listFilesLoop, hd]] at h
      obtain ⟨h1, h2, h3, h4⟩ := ih pr h
      exact ⟨List.mem_cons_of_mem _ h1, h2, h3, h4⟩
    · by_cases hne : stripRoot root f.name ≠ []
      · rw [show listFilesLoop root (f :: rest) =
            (stripRoot root f.name, f) :: listFilesLoop root rest from by
          simp [listFilesLoop, hd, toSlash, hne]] at h
        rcases List.mem_cons.mp h with heq | hmem
        · rw [heq]
          refine ⟨List.mem_cons_self _ _, ?_, rfl, hne⟩
          exact Bool.not_eq_true _ ▸ hd
        · obtain ⟨h1, h2, h3, h4⟩ := ih pr hmem
          exact ⟨List.mem_cons_of_mem _ h1, h2, h3, h4⟩
      · rw [show listFilesLoop root (f :: rest) = listFilesLoop root rest from by
          simp only [listFilesLoop, toSlash]
          rw [if_neg (by simpa using hd), if_neg hne]] at h
        obtain ⟨h1, h2, h3, h4⟩ := ih pr h
        exact ⟨List.mem_cons_of_mem _ h1, h2, h3, h4⟩

theorem listFilesLoop_complete (root : List Char) :
    ∀ (l : List ZipEntry) (f : ZipEntry), f ∈ l → f.isDir = false →
      stripRoot root f.name ≠ [] →
      (stripRoot root f.name, f) ∈ listFilesLoop root l := by
  intro l
  induction l with
  | nil => intro f h; simp at h
  | cons g rest ih =>
    intro f h hd hne
    rcases List.mem_cons.mp h with rfl | hmem
    · rw [show listFilesLoop root (f :: rest) =
          (stripRoot root f.name, f) :: listFilesLoop root rest from by
        simp [listFilesLoop, hd, toSlash, hne]]
      exact List.mem_cons_self _ _
    · by_cases hgd : g.isDir
      · rw [show listFilesLoop root (g :: rest) = listFilesLoop root rest from by
          simp [listFilesLoop, hgd]]
        exact ih f hmem hd hne
      · by_cases hgne : stripRoot root g.name ≠ []
        · rw [show listFilesLoop root (g :: rest) =
              (stripRoot root g.name, g) :: listFilesLoop root rest from by
            simp [listFilesLoop, hgd, toSlash, hgne]]
          exact List.mem_cons_of_mem _ (ih f hmem hd hne)
        · rw [show listFilesLoop root (g :: rest) = listFilesLoop root rest from by
            simp only [listFilesLoop, toSlash]
            rw [if_neg (by simpa using hgd), if_neg hgne]]
          exact ih f hmem hd hne

/-- C4: for a non-empty archive, the inferred root folder is the first path
segment of the first entry, and the file listing contains exactly the
non-directory entries with a non-empty rewritten path, where the rewriting
strips `root ++ "/"` from exactly the names having it as a prefix and keeps
every other name unchanged; directory entries never enter the listing. -/
theorem C4_root_folder_stripping (entries : List ZipEntry) (hne : entries ≠ []) :
    GetRootFolder entries =
      (splitOnChar '/' (trimLead "/".toList entries.headI.name)).headI ∧
    (∀ pr ∈ ListFiles entries,
      pr.2 ∈ entries ∧ pr.2.isDir = false ∧
      pr.1 = stripRoot (GetRootFolder entries) pr.2.name ∧ pr.1 ≠ []) ∧
    (∀ f ∈ entries, f.isDir = false →
      stripRoot (GetRootFolder entries) f.name ≠ [] →
      (stripRoot (GetRootFolder entries) f.name, f) ∈ ListFiles entries) := by
  refine ⟨?_, ?_, ?_⟩
  · cases entries with
    | nil => exact absurd rfl hne
    | cons e rest => rfl
  · intro pr h
    exact listFilesLoop_sound (GetRootFolder entries) entries pr h
  · intro f h hd hne2
    exact listFilesLoop_complete (GetRootFolder entries) entries f h hd hne2

theorem C4_root_folder_stripping_witness :
    (GetRootFolder [⟨"root/".toList, true⟩, ⟨"root/a.txt".toList, false⟩,
        ⟨"other.txt".toList, false⟩] =
      (splitOnChar '/' (trimLead "/".toList
        ([⟨"root/".toList, true⟩, ⟨"root/a.txt".toList, false⟩,
          ⟨"other.txt".toList, false⟩] : List ZipEntry).headI.name)).headI) ∧
    (∀ pr ∈ ListFiles [⟨"root/".toList, true⟩, ⟨"root/a.txt".toList, false⟩,
        ⟨"other.txt".toList, false⟩],
      pr.2 ∈ ([⟨"root/".toList, true⟩, ⟨"root/a.txt".toList, false⟩,
          ⟨"other.txt".toList, false⟩] : List ZipEntry) ∧ pr.2.isDir = false ∧
      pr.1 = stripRoot (GetRootFolder [⟨"root/".toList, true⟩,
        ⟨"root/a.txt".toList, false⟩, ⟨"other.txt".toList, false⟩]) pr.2.name ∧
      pr.1 ≠ []) ∧
    (∀ f ∈ ([⟨"root/".toList, true⟩, ⟨"root/a.txt".toList, false⟩,
        ⟨"other.txt".toList, false⟩] : List ZipEntry), f.isDir = false →
      stripRoot (GetRootFolder [⟨"root/".toList, true⟩, ⟨"root/a.txt".toList, false⟩,
        ⟨"other.txt".toList, false⟩]) f.name ≠ [] →
      (stripRoot (GetRootFolder [⟨"root/".toList, true⟩, ⟨"root/a.txt".toList, false⟩,
        ⟨"other.txt".toList, false⟩]) f.name, f) ∈
        ListFiles [⟨"root/".toList, true⟩, ⟨"root/a.txt".toList, false⟩,
          ⟨"other.txt".toList, false⟩]) := by
  exact C4_root_folder_stripping _ (by decide)

theorem exportLoop_spec (fs : ExportFS) (outputDir : List Char) (total : Nat) :
    ∀ (l : List DiffItem) (i : Nat),
      exportLoop fs outputDir total l i =
        ((match l.drop (l.takeWhile
            (fun it => fs.copy it.SourcePath (joinPath outputDir it.RelPath))).length with
          | [] => Except.ok ()
          | bad :: _ => Except.error (copyErrMsg bad.RelPath)),
         (List.zipWith (fun k it => ProgressEvent.mk k total (msgExport it.RelPath))
            (List.range' (i + 1)
              ((l.take ((l.takeWhile (fun it =>
                fs.copy it.SourcePath (joinPath outputDir it.RelPath))).length + 1)).length))
            (l.take ((l.takeWhile (fun it =>
              fs.copy it.SourcePath (joinPath outputDir it.RelPath))).length + 1)),
          (l.takeWhile (fun it => fs.copy it.SourcePath (joinPath outputDir it.RelPath))).map
            (fun it => (it.SourcePath, joinPath outputDir it.RelPath)))) := by
  intro l
  induction l with
  | nil => intro i; rfl
  | cons item rest ih =>
    intro i
    by_cases hc : fs.copy item.SourcePath (joinPath outputDir item.RelPath)
    · simp only [exportLoop, hc, if_true, List.takeWhile_cons, List.length_cons,
        List.drop_succ_cons, List.take_succ_cons, List.zipWith_cons_cons, List.map_cons,
        List.range'_succ, ih (i + 1)]
    · simp only [exportLoop, hc, Bool.false_eq_true, if_false, List.takeWhile_cons,
        List.length_nil, List.drop_zero, List.take_succ_cons, List.take_zero,
        List.length_cons, List.range'_succ, List.zipWith_cons_cons, List.map_nil]
      rfl

/-- C7: `ExportDiffs` filters to the selected, non-deleted items, processes
them in order firing one progress event per item before its copy, copies
each to `outputDir/relativePath`, and stops at the first copy failure,
returning that error, performing none of the remaining copies and keeping
the ones already made. -/
theorem C7_export_semantics (fs : ExportFS) (items : List DiffItem) (outputDir : List Char)
    (hmk : fs.mkdirOk = true) :
    ExportDiffs fs items outputDir =
      ((match (items.filter (fun it => it.Selected && !(it.kind == "deleted".toList))).drop
          ((items.filter (fun it => it.Selected && !(it.kind == "deleted".toList))).takeWhile
            (fun it => fs.copy it.SourcePath (joinPath outputDir it.RelPath))).length with
        | [] => Except.ok ()
        | bad :: _ => Except.error (copyErrMsg bad.RelPath)),
       (List.zipWith (fun k it => ProgressEvent.mk k
            (items.filter (fun it => it.Selected && !(it.kind == "deleted".toList))).length
            (msgExport it.RelPath))
          (List.range' 1
            (((items.filter (fun it => it.Selected && !(it.kind == "deleted".toList))).take
              (((items.filter (fun it => it.Selected && !(it.kind == "deleted".toList))).takeWhile
                (fun it => fs.copy it.SourcePath (joinPath outputDir it.RelPath))).length + 1)).length))
          ((items.filter (fun it => it.Selected && !(it.kind == "deleted".toList))).take
            (((items.filter (fun it => it.Selected && !(it.kind == "deleted".toList))).takeWhile
              (fun it => fs.copy it.SourcePath (joinPath outputDir it.RelPath))).length + 1)),
        ((items.filter (fun it => it.Selected && !(it.kind == "deleted".toList))).takeWhile
          (fun it => fs.copy it.SourcePath (joinPath outputDir it.RelPath))).map
          (fun it => (it.SourcePath, joinPath outputDir it.RelPath)))) := by
  unfold ExportDiffs
  rw [hmk]
  simp only [Bool.not_true, Bool.false_eq_true, if_false]
  exact exportLoop_spec fs outputDir _ _ 0

theorem splitOnChar_ne_nil (sep : Char) (l : List Char) : splitOnChar sep l ≠ [] := by
  cases l with
  | nil => simp [splitOnChar]
  | cons c rest =>
    simp only [splitOnChar]
    by_cases hc : c == sep
    · simp [hc]
    · simp only [hc, Bool.false_eq_true, if_false]
      cases splitOnChar sep rest <;> simp

theorem joinWith_splitOnChar (sep : Char) (l : List Char) :
    joinWith sep (splitOnChar sep l) = l := by
  induction l with
  | nil => rfl
  | cons c rest ih =>
    simp only [splitOnChar]
    by_cases hc : c == sep
    · have hcc : c = sep := by simpa using hc
      rw [if_pos hc]
      cases hsp : splitOnChar sep rest with
      | nil => exact absurd hsp (splitOnChar_ne_nil sep rest)
      | cons s ss =>
        rw [hsp] at ih
        rw [show joinWith sep ([] :: s :: ss) = sep :: joinWith sep (s :: ss) from rfl]
        rw [ih, hcc]
    · rw [if_neg (by simpa using hc)]
      cases hsp : splitOnChar sep rest with
      | nil => exact absurd hsp (splitOnChar_ne_nil sep rest)
      | cons s ss =>
        rw [hsp] at ih
        cases ss with
        | nil =>
          have hs : s = rest := ih
          rw [show (match (s :: [] : List (List Char)) with
            | [] => [[c]]
            | s :: ss => (c :: s) :: ss) = [c :: s] from rfl]
          rw [show joinWith sep [c :: s] = c :: s from rfl, hs]
        | cons s2 ss2 =>
          rw [show (match (s :: s2 :: ss2 : List (List Char)) with
            | [] => [[c]]
            | s :: ss => (c :: s) :: ss) = (c :: s) :: s2 :: ss2 from rfl]
          rw [show joinWith sep ((c :: s) :: s2 :: ss2) =
            (c :: s) ++ sep :: joinWith sep (s2 :: ss2) from rfl]
          rw [show joinWith sep (s :: s2 :: ss2) =
            s ++ sep :: joinWith sep (s2 :: ss2) from rfl] at ih
          rw [List.cons_append, ih]

theorem splitOnChar_append_sep (sep : Char) (l : List Char) :
    splitOnChar sep (l ++ [sep]) = splitOnChar sep l ++ [[]] := by
  induction l with
  | nil => simp [splitOnChar]
  | cons c rest ih =>
    by_cases hc : c == sep
    · simp only [List.cons_append, splitOnChar, hc, if_true, List.append_eq, ih]
    · simp only [List.cons_append, splitOnChar, hc, Bool.false_eq_true, if_false,
        List.append_eq, ih]
      cases hsp : splitOnChar sep rest with
      | nil => exact absurd hsp (splitOnChar_ne_nil sep rest)
      | cons s ss => simp [List.cons_append]

theorem keepLines_append_single (xs : List (List Char)) (x : List Char) :
    keepLines (xs ++ [x]) = xs ++ (if x = [] then [] else [x]) := by
  induction xs with
  | nil => simp [keepLines]
  | cons a xs ih =>
    cases xs with
    | nil =>
      simp only [List.nil_append] at ih
      simp only [List.cons_append, List.nil_append]
      rw [show keepLines (a :: [x]) = a :: keepLines [x] from rfl, ih]
    | cons b xs2 =>
      simp only [List.cons_append] at ih ⊢
      rw [show keepLines (a :: b :: (xs2 ++ [x])) =
        a :: keepLines (b :: (xs2 ++ [x])) from rfl]
      rw [ih]

theorem splitOnChar_append_ne (sep c : Char) (hc : ¬c = sep) (l : List Char) :
    ∃ xs x, splitOnChar sep (l ++ [c]) = xs ++ [x] ∧ x ≠ [] := by
  induction l with
  | nil =>
    refine ⟨[], [c], ?_, by simp⟩
    simp [splitOnChar, beq_eq_false_iff_ne.mpr hc]
  | cons d l ih =>
    obtain ⟨xs, x, hx, hxne⟩ := ih
    by_cases hd : d == sep
    · refine ⟨[] :: xs, x, ?_, hxne⟩
      simp [splitOnChar, hd, hx]
    · cases xs with
      | nil =>
        refine ⟨[], d :: x, ?_, by simp⟩
        simp only [List.nil_append] at hx
        simp [splitOnChar, hd, hx]
      | cons s xs2 =>
        refine ⟨(d :: s) :: xs2, x, ?_, hxne⟩
        simp only [List.cons_append] at hx
        simp [splitOnChar, hd, hx]

theorem joinWith_keepLines_splitOnChar (sep : Char) (l : List Char) :
    joinWith sep (keepLines (splitOnChar sep l)) =
      if l.getLast? = some sep then l.dropLast else l := by
  rcases List.eq_nil_or_concat l with rfl | ⟨L, b, rfl⟩
  · simp [splitOnChar, keepLines, joinWith]
  · simp only [List.concat_eq_append]
    by_cases hb : b = sep
    · subst hb
      rw [splitOnChar_append_sep, keepLines_append_single, if_pos rfl, List.append_nil]
      rw [joinWith_splitOnChar]
      rw [List.getLast?_concat, if_pos rfl, List.dropLast_concat]
    · obtain ⟨xs, x, hx, hxne⟩ := splitOnChar_append_ne sep b hb L
      rw [hx, keepLines_append_single, if_neg hxne, ← hx, joinWith_splitOnChar]
      rw [List.getLast?_concat, if_neg (by simp [hb])]

/-- C9: `CompareTexts` on two identical texts yields only `equal` lines; the
line contents, rejoined on line boundaries, reconstruct the text (up to the
dropped trailing empty line when the text ends in a newline).  The
hypothesis is the go-diff engine's documented behavior on identical inputs
(a single equality span, empty input giving no spans). -/
theorem C9_diff_roundtrip_equal (d : TextDiffer) (A : List Char) (hd : dmpEqualId d A) :
    (∀ ln ∈ (CompareTexts d A A).Lines, ln.kind = "equal".toList) ∧
    joinWith '\n' ((CompareTexts d A A).Lines.map (fun ln => ln.Content)) =
      (if A.getLast? = some '\n' then A.dropLast else A) := by
  unfold dmpEqualId at hd
  have hlines : (CompareTexts d A A).Lines = (d.dmp A A).flatMap (fun df =>
      (keepLines (splitOnChar '\n' df.text)).map
        (fun l => ({ kind := opName df.op, Content := l } : DiffLine))) := rfl
  rw [hlines, hd]
  by_cases hA : A = []
  · subst hA
    constructor
    · intro ln hln
      simp at hln
    · simp [joinWith]
  · rw [if_neg hA]
    constructor
    · intro ln hln
      simp only [List.flatMap_cons, List.flatMap_nil, List.append_nil, List.mem_map] at hln
      obtain ⟨l0, _, rfl⟩ := hln
      rfl
    · simp only [List.flatMap_cons, List.flatMap_nil, List.append_nil, List.map_map]
      rw [show ((fun ln => ln.Content) ∘
          (fun l => ({ kind := opName DiffOp.equal, Content := l } : DiffLine))) =
        id from rfl]
      rw [List.map_id]
      exact joinWith_keepLines_splitOnChar '\n' A

theorem C9_diff_roundtrip_equal_witness :
    (∀ ln ∈ (CompareTexts
        ⟨fun a b => if a == b then
          (if a == ([] : List Char) then [] else [⟨DiffOp.equal, a⟩])
          else [⟨DiffOp.delete, a⟩, ⟨DiffOp.insert, b⟩]⟩
        "ab\ncd\n".toList "ab\ncd\n".toList).Lines, ln.kind = "equal".toList) ∧
    joinWith '\n' ((CompareTexts
        ⟨fun a b => if a == b then
          (if a == ([] : List Char) then [] else [⟨DiffOp.equal, a⟩])
          else [⟨DiffOp.delete, a⟩, ⟨DiffOp.insert, b⟩]⟩
        "ab\ncd\n".toList "ab\ncd\n".toList).Lines.map (fun ln => ln.Content)) =
      (if "ab\ncd\n".toList.getLast? = some '\n' then "ab\ncd\n".toList.dropLast
       else "ab\ncd\n".toList) := by
  exact C9_diff_roundtrip_equal _ _ (by unfold dmpEqualId; decide)

theorem C7_export_semantics_witness :
    ExportDiffs
      ⟨true, fun src _ => !(src == "S/bad".toList)⟩
      [⟨"a.txt".toList, "added".toList, true, "S/a.txt".toList⟩,
       ⟨"gone.txt".toList, "deleted".toList, true, [] ⟩,
       ⟨"skip.txt".toList, "modified".toList, false, "S/skip.txt".toList⟩,
       ⟨"b.txt".toList, "modified".toList, true, "S/bad".toList⟩,
       ⟨"c.txt".toList, "added".toList, true, "S/c.txt".toList⟩]
      "out".toList =
    (Except.error (copyErrMsg "b.txt".toList),
     ([ProgressEvent.mk 1 3 (msgExport "a.txt".toList),
       ProgressEvent.mk 2 3 (msgExport "b.txt".toList)],
      [("S/a.txt".toList, joinPath "out".toList "a.txt".toList)])) := by
  rw [C7_export_semantics _ _ _ rfl]
  rfl
